import Mathlib

/-!
Verification of the pytableformat library (`pytableformat/pytableformat.py`).

The embedding models Python strings as `List Char`.  Character classes that the
source expresses with the regex escapes `\d` and `\s` are modelled with their
ASCII meanings (`Char.isDigit`, the six ASCII whitespace characters); the
development only evaluates them on ASCII inputs.  Python's `ValueError`s are
modelled by the inductive `PyErr`, whose constructors follow the error
taxonomy of the specification (§7): in the source every one of these is a
`ValueError`, and the specification gives each raise site its own name.
-/

namespace PyTF

/-- Errors of the library, following the specification's taxonomy (§7).  In the
Python source each of these is raised as a `ValueError`; the constructors
distinguish the raise sites. `valueError` stands for the errors the source
inherits from the host language (`max()` of an empty sequence, unpacking a
`hrule_format` that does not have exactly 3 characters). -/
inductive PyErr where
  | formatSyntax
  | columnSyntax
  | headerMismatch
  | rowCountMismatch
  | valueError
deriving DecidableEq, Repr

/-- The structured format specification produced by `Format.__init__`
(pytableformat.py lines 32-53).  Every field is a string in the source
(`self.fill`, `self.align`, ..., `self.type`), the empty string meaning the
optional regex group matched nothing; strings are modelled as `List Char`. -/
structure Format where
  fill : List Char
  align : List Char
  sign : List Char
  z : List Char
  alt : List Char
  zero : List Char
  width : List Char
  grouping_option : List Char
  precision : List Char
  type : List Char
deriving DecidableEq, Repr

/-- The alignment characters of the regex group `(?P<align>[<>=^])`. -/
def alignChars : List Char := ['<', '>', '=', '^']

/-- The sign characters of the regex group `(?P<sign>[\+\- ]?)`. -/
def signChars : List Char := ['+', '-', ' ']

/-- The presentation type characters of `(?P<type>[bcdeEfFgGnosxX%]?)`. -/
def typeChars : List Char := ['b', 'c', 'd', 'e', 'E', 'f', 'F', 'g', 'G', 'n',
  'o', 's', 'x', 'X', '%']

/-- The regex group `((?P<fill>.?)(?P<align>[<>=^]))?`, with Python's greedy
backtracking semantics: the group first tries to let `.?` consume one
character (any character except a newline) followed by an alignment
character; failing that, `.?` matches the empty string and the next character
must be an alignment character; otherwise, the whole group matches nothing.
Returns (fill, align, rest). -/
def matchFillAlign : List Char → List Char × List Char × List Char
  | [] => ([], [], [])
  | [c] => if c ∈ alignChars then ([], [c], []) else ([], [], [c])
  | c0 :: c1 :: rest =>
    if c0 ≠ '\n' ∧ c1 ∈ alignChars then ([c0], [c1], rest)
    else if c0 ∈ alignChars then ([], [c0], c1 :: rest)
    else ([], [], c0 :: c1 :: rest)

/-- A regex group of the shape `[...]?`: greedily consume one character from
the given class, or nothing. -/
def matchOneOf (cs : List Char) : List Char → List Char × List Char
  | [] => ([], [])
  | c :: rest => if c ∈ cs then ([c], rest) else ([], c :: rest)

/-- The regex group `(\.(?P<precision>\d+))?`: a literal dot followed by a
maximal nonempty digit run, or nothing (if the dot is not followed by a
digit, the group matches nothing and the dot is left unconsumed). -/
def matchPrecision : List Char → List Char × List Char
  | [] => ([], [])
  | c :: rest =>
    if c = '.' then
      let p := rest.span Char.isDigit
      if p.1 = [] then ([], c :: rest) else (p.1, p.2)
    else ([], c :: rest)

/-- One greedy left-to-right pass of `Format.pattern` over the input,
returning the matched groups and the unconsumed suffix.  Because every group
of the pattern is optional, `Format.pattern.match` always succeeds, and the
greedy choices below are final (no later group can fail and force
backtracking into an earlier one).  `(?P<width>(\d+)?)` is the maximal digit
run at its position. -/
def runFormat (s : List Char) : Format × List Char :=
  let fa := matchFillAlign s
  let sg := matchOneOf signChars fa.2.2
  let zz := matchOneOf ['z'] sg.2
  let aa := matchOneOf ['#'] zz.2
  let zr := matchOneOf ['0'] aa.2
  let wd := zr.2.span Char.isDigit
  let gr := matchOneOf [',', '_'] wd.2
  let pr := matchPrecision gr.2
  let ty := matchOneOf typeChars pr.2
  (⟨fa.1, fa.2.1, sg.1, zz.1, aa.1, zr.1, wd.1, gr.1, pr.1, ty.1⟩, ty.2)

/-- `Format.__init__` (lines 32-53): match the pattern against the input and
fail (`FormatSyntaxError` in the specification's taxonomy, a `ValueError` in
the source) unless the match consumed the entire string
(`match.end() != len(format)` check, line 38). -/
def parseFormat (s : List Char) : Option Format :=
  match runFormat s with
  | (f, []) => some f
  | _ => none

/-- The serialized specification string re-emitted by `Format.__str__`
(lines 55-58) without the surrounding "{:" and "}" of the template: the
specification's `format_spec_to_string` (§4.1 Serialization).  The precision
is prefixed with "." exactly when present (`self.precision and
f".{self.precision}"`). -/
def Format.specString (f : Format) : List Char :=
  f.fill ++ f.align ++ f.sign ++ f.z ++ f.alt ++ f.zero ++ f.width ++
    f.grouping_option ++ (if f.precision = [] then [] else '.' :: f.precision) ++ f.type

/-- `Format.__str__` (lines 55-58): the single-field template
`"{:" ++ spec ++ "}"`. -/
def Format.toStr (f : Format) : List Char :=
  '{' :: ':' :: (f.specString ++ ['}'])

/-- Decimal digit string to a natural number (how the host formatter reads
the `width`/`precision` fields; the empty string reads as 0 / "unset"). -/
def natOfDigits (ds : List Char) : Nat :=
  ds.foldl (fun n c => 10 * n + (c.toNat - 48)) 0

/-- The shape invariant satisfied by every `Format` that `parseFormat`
produces: each field is one of the texts its regex group can match, a
non-empty `fill` comes with an alignment (the two are one group) and is
never a newline (`.` does not match a newline), and when the `zero` group
matched nothing the `width` run cannot start with '0' (the `0?` group just
before it would have consumed that character). -/
def Format.WF (f : Format) : Prop :=
  ((f.fill = [] ∧ (f.align = [] ∨ ∃ c ∈ alignChars, f.align = [c])) ∨
    (∃ c0, ∃ c1 ∈ alignChars, c0 ≠ '\n' ∧ f.fill = [c0] ∧ f.align = [c1])) ∧
  (f.sign = [] ∨ ∃ c ∈ signChars, f.sign = [c]) ∧
  (f.z = [] ∨ f.z = ['z']) ∧
  (f.alt = [] ∨ f.alt = ['#']) ∧
  (f.zero = [] ∨ f.zero = ['0']) ∧
  (∀ c ∈ f.width, Char.isDigit c) ∧
  (f.zero = [] → f.width.head? ≠ some '0') ∧
  (f.grouping_option = [] ∨ f.grouping_option = [','] ∨ f.grouping_option = ['_']) ∧
  (∀ c ∈ f.precision, Char.isDigit c) ∧
  (f.type = [] ∨ ∃ c ∈ typeChars, f.type = [c])

/-- Modelled from the spec: a structured decomposition conforming to the
§4.1 grammar `[[fill]align][sign]["z"]["#"]["0"][width][grouping][","
precision][type]`, where "fill is exactly one arbitrary character, but only
recognized when immediately followed by a valid align character" — in
particular the spec's fill may be any character, a newline included. -/
def Format.GrammarWF (f : Format) : Prop :=
  ((f.fill = [] ∧ (f.align = [] ∨ ∃ c ∈ alignChars, f.align = [c])) ∨
    (∃ c0, ∃ c1 ∈ alignChars, f.fill = [c0] ∧ f.align = [c1])) ∧
  (f.sign = [] ∨ ∃ c ∈ signChars, f.sign = [c]) ∧
  (f.z = [] ∨ f.z = ['z']) ∧
  (f.alt = [] ∨ f.alt = ['#']) ∧
  (f.zero = [] ∨ f.zero = ['0']) ∧
  (∀ c ∈ f.width, Char.isDigit c) ∧
  (f.grouping_option = [] ∨ f.grouping_option = [','] ∨ f.grouping_option = ['_']) ∧
  (∀ c ∈ f.precision, Char.isDigit c) ∧
  (f.type = [] ∨ ∃ c ∈ typeChars, f.type = [c])

/-- Modelled from the spec: the input matches the §4.1 grammar as a whole —
it is the concatenation, in the grammar's fixed order, of one text per
(optional) component. -/
def specGrammar (s : List Char) : Prop :=
  ∃ f : Format, f.GrammarWF ∧ s = f.specString

/-- The §4.1 grammar with the fill character restricted to non-newline
characters (the amendment the parser's behaviour forces: its fill group
`.?` never matches a newline). -/
def specGrammarNoNewline (s : List Char) : Prop :=
  ∃ f : Format, f.GrammarWF ∧ f.fill ≠ ['\n'] ∧ s = f.specString

/-- Modelled from the spec: the host formatting primitive
`render_value(spec_string, value)` of §6 ("a standard library's mini-language
formatter"), restricted to string values with the alignment/fill/width/
precision components: the value is truncated to `precision` when a precision
is set, then padded with the fill character (default a space) to `width`
under the alignment (`<` default for strings, `>` right, `^` centered with
the extra fill on the right).  The numeric-only components (sign, `z`, `#`,
`0`, grouping) and non-string presentation types are outside this model; the
theorems below apply it only to specifications in which those components are
absent. -/
def renderStr (f : Format) (s : List Char) : List Char :=
  let t := if f.precision = [] then s else s.take (natOfDigits f.precision)
  let w := natOfDigits f.width
  let fillc := match f.fill with
    | [] => ' '
    | c :: _ => c
  let pad := w - t.length
  match f.align with
  | ['>'] => List.replicate pad fillc ++ t
  | ['^'] => List.replicate (pad / 2) fillc ++ t ++ List.replicate (pad - pad / 2) fillc
  | _ => t ++ List.replicate pad fillc

/-- The `HRule` enum (lines 63-75), an `IntEnum` in the source.  `toNat` gives
the ordinal values `NONE=0, HEADER=1, FRAME=2, FRAME_HEADER=3, ALL=4` used by
the `>=` comparison in `Column.format`. -/
inductive HRule where
  | NONE
  | HEADER
  | FRAME
  | FRAME_HEADER
  | ALL
deriving DecidableEq, Repr

/-- The `IntEnum` value of a horizontal-rule policy. -/
def HRule.toNat : HRule → Nat
  | .NONE => 0
  | .HEADER => 1
  | .FRAME => 2
  | .FRAME_HEADER => 3
  | .ALL => 4

/-- The ASCII characters matched by the regex escape `\s` (`str.isspace`
whitespace, restricted to ASCII). -/
def isPySpace (c : Char) : Bool :=
  c == ' ' || c == '\t' || c == '\n' || c == '\r' || c == '\x0b' || c == '\x0c'

/-- The tail `(?P<right_padding>\s*)(?P<right_border>\S?)` of `Column.pattern`,
anchored at the end of the input (fullmatch): a maximal whitespace run
followed by at most one character, which is necessarily non-whitespace.  No
backtracking helps here: giving a character back from `\s*` would require
`\S?` to match a whitespace character. -/
def matchTailCol (s : List Char) : Option (List Char × List Char) :=
  let p := s.span isPySpace
  match p.2 with
  | [] => some (p.1, [])
  | [c] => some (p.1, [c])
  | _ => none

/-- The part `(?P<content_format>.*))?\}` + tail of `Column.pattern` after a
leading ":" has been consumed: `.*` greedily matches the longest
newline-free prefix that is followed by a literal "}" and a matching tail,
backtracking to shorter prefixes (earlier "}" positions) when the tail does
not match.  Returns (content_format, right_padding, right_border). -/
def contentSplit (rest : List Char) : Option (List Char × List Char × List Char) :=
  (List.range rest.length).reverse.findSome? (fun j =>
    if rest.getD j ' ' = '}' ∧ ¬ ('\n' ∈ rest.take j) then
      (matchTailCol (rest.drop (j + 1))).map (fun pr => (rest.take j, pr.1, pr.2))
    else none)

/-- The part `(:(?P<content_format>.*))?\}` + tail of `Column.pattern`,
applied to the input after the literal "{".  The optional group is tried
greedily first: it requires a leading ":"; if the input does not start with
":", the group matches nothing and the next character must be the literal
"}".  (When the input starts with ":" the empty-group alternative can never
succeed, since "}" ≠ ":".)  Returns (content_format?, right_padding,
right_border), with `none` content when the group matched nothing. -/
def matchAfterBrace (s : List Char) :
    Option (Option (List Char) × List Char × List Char) :=
  match s with
  | ':' :: rest => (contentSplit rest).map (fun x => (some x.1, x.2.1, x.2.2))
  | '}' :: rest => (matchTailCol rest).map (fun pr => (none, pr.1, pr.2))
  | _ => none

/-- `Column.pattern` after the left border has been fixed: the maximal
whitespace run `(?P<left_padding>\s*)`, then the literal "{", then
`matchAfterBrace`.  Backtracking inside `\s*` cannot help since "{" is not
whitespace. -/
def matchBody (lb : List Char) (s : List Char) :
    Option (List Char × List Char × Option (List Char) × List Char × List Char) :=
  let p := s.span isPySpace
  match p.2 with
  | '{' :: s4 => (matchAfterBrace s4).map (fun x => (lb, p.1, x.1, x.2.1, x.2.2))
  | _ => none

/-- `Column.pattern.fullmatch` (lines 114-120): `(?P<left_border>\S?)` greedily
takes one non-whitespace character first and falls back to the empty match if
the rest of the pattern cannot complete.  Returns the five groups
(left_border, left_padding, content_format?, right_padding, right_border). -/
def matchColumn (s : List Char) :
    Option (List Char × List Char × Option (List Char) × List Char × List Char) :=
  match s with
  | [] => none
  | c :: rest =>
    if isPySpace c then matchBody [] (c :: rest)
    else
      match matchBody [c] rest with
      | some x => some x
      | none => matchBody [] (c :: rest)

/-- The state of a `Column` (lines 122-144).  `width` holds the width string
parsed at construction time (`self.width`, line 139), kept separately from
the mutable `content_format.width`; `hrule_left_char`/`hrule_char`/
`hrule_right_char` are the three characters unpacked from `hrule_format`
(line 144). -/
structure Column where
  left_border : List Char
  left_padding : List Char
  content_format : Format
  width : List Char
  right_padding : List Char
  right_border : List Char
  hrule : HRule
  hrule_left_char : Char
  hrule_char : Char
  hrule_right_char : Char
deriving DecidableEq, Repr

/-- `Column.__init__` (lines 122-144): match the column pattern
(`ColumnSyntaxError` on failure), parse the embedded content format
(`FormatSyntaxError` on failure; an absent group parses as the empty
string), record the parsed width, force `content_format.precision :=
content_format.width` (line 140), and unpack the three `hrule_format`
characters (a `ValueError` when `hrule_format` does not have exactly 3
characters). -/
def mkColumn (format : List Char) (hrule : HRule) (hrule_format : List Char) :
    Except PyErr Column :=
  match matchColumn format with
  | none => .error .columnSyntax
  | some (lb, lp, content, rp, rb) =>
    match parseFormat (content.getD []) with
    | none => .error .formatSyntax
    | some pf =>
      match hrule_format with
      | [l, m, r] =>
        .ok ⟨lb, lp, { pf with precision := pf.width }, pf.width, rp, rb, hrule, l, m, r⟩
      | _ => .error .valueError

/-- The width string assigned to `self.content_format.width` at the start of
`Column.format` (lines 157-158): the construction-time width if one was
given, otherwise the maximum length of the values as rendered by the
*current* `content_format` — including whatever width is still stored in it
from a previous `format` call, because the right-hand side of the assignment
is evaluated before the assignment takes effect.  `max()` of an empty
sequence is a `ValueError`.  `fmt` is the host formatting primitive (§6)
applied to `str(self.content_format)`. -/
def Column.autoWidth (fmt : Format → List Char → List Char) (c : Column)
    (values : List (List Char)) : Except PyErr (List Char) :=
  if c.width ≠ [] then .ok c.width
  else
    match values with
    | [] => .error .valueError
    | _ =>
      .ok (Nat.repr ((values.map (fun v => (fmt c.content_format v).length)).foldl
        Nat.max 0)).data

/-- One formatted row (line 168, `format.format(col)`): the template
`str(self)` (line 146-150) instantiated at a value.  The borders are
curly-escaped in the template exactly so that instantiation concatenates
them literally around the rendered content. -/
def Column.rowLine (fmt : Format → List Char → List Char) (c : Column)
    (v : List Char) : List Char :=
  c.left_border ++ c.left_padding ++ fmt c.content_format v ++ c.right_padding ++
    c.right_border

/-- `Column.total_width` (lines 183-186): the padding widths plus the length
of the empty string rendered under the content format. -/
def Column.totalWidth (fmt : Format → List Char → List Char) (c : Column) : Nat :=
  c.left_padding.length + (fmt c.content_format []).length + c.right_padding.length

/-- The horizontal rule line (lines 160-162): the left junction character
repeated `bool(left_border)` times, the fill character repeated
`total_width` times, the right junction character repeated
`bool(right_border)` times. -/
def Column.hruleLine (fmt : Format → List Char → List Char) (c : Column) :
    List Char :=
  (if c.left_border = [] then [] else [c.hrule_left_char]) ++
    List.replicate (Column.totalWidth fmt c) c.hrule_char ++
    (if c.right_border = [] then [] else [c.hrule_right_char])

/-- The `for col in column` loop body (lines 167-171): one rendered line per
value, each followed by `extra` (which is `[hrule]` under policy `ALL` and
`[]` otherwise). -/
def Column.bodyLines (row : List Char → List Char) (extra : List (List Char)) :
    List (List Char) → List (List Char)
  | [] => []
  | v :: vs => row v :: (extra ++ Column.bodyLines row extra vs)

/-- The column state after the assignment `self.content_format.width = w`
(line 157). -/
def updWidth (c : Column) (w : List Char) : Column :=
  { c with content_format := { c.content_format with width := w } }

/-- Python's `list.insert(i, x)` for a non-negative index: insert before
position `i`, appending when `i` is past the end. -/
def pyInsert {α : Type} (i : Nat) (x : α) (l : List α) : List α :=
  l.take i ++ x :: l.drop i

/-- `Column.format` (lines 152-181): recompute `content_format.width`
(`autoWidth`), then build the rule line, emit a leading rule when
`self.hrule >= HRule.FRAME`, emit the loop lines (with a rule after every
line under `ALL`), insert a rule at index 1 under `HEADER`, at index 2 under
`FRAME_HEADER` when more than one value was supplied, and append a trailing
rule under `FRAME` and `FRAME_HEADER`.  Returns the updated column state
(the source mutates `self.content_format.width` in place) together with the
output lines. -/
def Column.format (fmt : Format → List Char → List Char) (c : Column)
    (values : List (List Char)) : Except PyErr (Column × List (List Char)) :=
  match Column.autoWidth fmt c values with
  | .error e => .error e
  | .ok w =>
    let c' : Column := updWidth c w
    let hr := Column.hruleLine fmt c'
    let out1 : List (List Char) :=
      (if HRule.FRAME.toNat ≤ c'.hrule.toNat then [hr] else []) ++
        Column.bodyLines (Column.rowLine fmt c')
          (if c'.hrule = HRule.ALL then [hr] else []) values
    let out2 : List (List Char) :=
      if c'.hrule = HRule.HEADER then pyInsert 1 hr out1
      else if c'.hrule = HRule.FRAME_HEADER ∧ 1 < values.length then pyInsert 2 hr out1
      else out1
    let out3 : List (List Char) :=
      if c'.hrule = HRule.FRAME ∨ c'.hrule = HRule.FRAME_HEADER then out2 ++ [hr]
      else out2
    .ok (c', out3)

/-- The length of the shortest row: the number of tuples produced by
Python's `zip(*rows)` (0 when there are no rows, since `zip()` of no
iterables is empty). -/
def minRowLen {α : Type} (rows : List (List α)) : Nat :=
  match rows with
  | [] => 0
  | r :: rest => rest.foldl (fun a s => Nat.min a s.length) r.length

/-- Python's `zip(*rows)` materialized as a list of lists (`[list(column) for
column in zip(*rows)]`, line 233): one output list per index below the
shortest row's length, collecting that index's entry of every row; longer
rows are silently truncated. -/
def pyTranspose {α : Type} [Inhabited α] (rows : List (List α)) : List (List α) :=
  match rows with
  | [] => []
  | _ => (List.range (minRowLen rows)).map (fun j => rows.map (fun r => r.getD j default))

/-- Modelled from the spec: the column-major transpose of a row-major matrix
(§4.3, `format_rows` "transposes a row-major input (each inner sequence is
one row, with one value per column) into column-major form").  Column `j`
collects the `j`-th value of every row; a matrix with no rows transposes to
the empty list (the standard transpose-of-a-list-of-lists convention). -/
def colMajorTranspose {α : Type} [Inhabited α] (rows : List (List α)) :
    List (List α) :=
  match rows with
  | [] => []
  | r :: _ => (List.range r.length).map (fun j => rows.map (fun row => row.getD j default))

/-- `zip(*formatted_columns, strict=True)` (line 230): transpose the
per-column line lists into rows of fragments, failing with a `ValueError`
(the specification's `RowCountMismatchError`) when the line lists do not
all have the same length.  `zip` of no iterables is empty. -/
def strictLines (ls : List (List (List Char))) :
    Except PyErr (List (List (List Char))) :=
  match ls with
  | [] => .ok []
  | l :: rest =>
    if rest.all (fun r => r.length == l.length) then .ok (pyTranspose (l :: rest))
    else .error .rowCountMismatch

/-- The state of a `Table` (lines 208-223): the headers (`headers or []`)
and one `Column` per column format string. -/
structure Table where
  headers : List (List Char)
  columns : List Column
deriving Repr

/-- `Table.__init__` (lines 208-223): fail with the specification's
`HeaderMismatchError` when headers are supplied, non-empty (an empty list is
falsy in Python, meaning "no header row", §3) and their count differs from
the column-format count; then build one `Column` per format string. -/
def mkTable (column_formats : List (List Char)) (headers : Option (List (List Char)))
    (hrule : HRule) (hrule_format : List Char) : Except PyErr Table :=
  let hs := headers.getD []
  if hs ≠ [] ∧ column_formats.length ≠ hs.length then .error .headerMismatch
  else
    match column_formats.mapM (fun f => mkColumn f hrule hrule_format) with
    | .error e => .error e
    | .ok cols => .ok ⟨hs, cols⟩

/-- `Table.format` (lines 225-230): when headers are present, prepend each
header to its column (`zip(self.headers, columns)` truncates to the shorter
of the two); format each column with its content (`zip(self.columns,
columns)` truncates likewise); then join the strict row-wise transpose of
the formatted columns, concatenating the fragments of each row and joining
the rows with a newline.  The in-place width mutation that `Column.format`
performs on each column is not observed by any property below, so the
updated column states are dropped. -/
def Table.format (fmt : Format → List Char → List Char) (t : Table)
    (columns : List (List (List Char))) : Except PyErr (List Char) :=
  let cols := if t.headers = [] then columns
    else List.zipWith (fun h c => h :: c) t.headers columns
  match (t.columns.zip cols).mapM (fun pc => Column.format fmt pc.1 pc.2) with
  | .error e => .error e
  | .ok results =>
    match strictLines (results.map (fun pr => pr.2)) with
    | .error e => .error e
    | .ok lineRows =>
      .ok (List.intercalate ['\n'] (lineRows.map (fun row => row.flatten)))

/-- `Table.format_rows` (lines 232-234): transpose the row-major input with
`zip(*rows)` — silently truncating ragged rows to the shortest row — and
delegate to `Table.format`. -/
def Table.format_rows (fmt : Format → List Char → List Char) (t : Table)
    (rows : List (List (List Char))) : Except PyErr (List Char) :=
  Table.format fmt t (pyTranspose rows)

/-- The all-empty format specification: the parse of the empty spec string
(what `Column("{}")` stores as its content format). -/
def demoFormat : Format := ⟨[], [], [], [], [], [], [], [], [], []⟩

/-- The column produced by `Column("{}", h, "+-+")`: no borders, no padding,
no explicit width. -/
def demoColumn (h : HRule) : Column :=
  ⟨[], [], demoFormat, [], [], [], h, '+', '-', '+'⟩

/-- The format specification parsed from "3" with the constructor's
`precision := width` assignment applied. -/
def demoFormat3 : Format := ⟨[], [], [], [], [], [], ['3'], [], ['3'], []⟩

/-- The column produced by `Column("{:3}", HRule.NONE, "+-+")`: explicit
width 3. -/
def demoColumn3 : Column :=
  ⟨[], [], demoFormat3, ['3'], [], [], HRule.NONE, '+', '-', '+'⟩

/-- A one-column table built from the single format string "{}". -/
def demoTable : Table := ⟨[], [demoColumn HRule.NONE]⟩

/-! Helper lemmas about the building blocks of `Column.format`. -/

theorem bodyLines_length (row : List Char → List Char) (extra : List (List Char))
    (l : List (List Char)) :
    (Column.bodyLines row extra l).length = l.length * (1 + extra.length) := by
  induction l with
  | nil => simp [Column.bodyLines]
  | cons v vs ih => simp [Column.bodyLines, ih]; ring

theorem bodyLines_no_extra (row : List Char → List Char) (l : List (List Char)) :
    Column.bodyLines row [] l = l.map row := by
  induction l with
  | nil => rfl
  | cons v vs ih => simp [Column.bodyLines, ih]

theorem pyInsert_length {α : Type} (i : Nat) (x : α) (l : List α) :
    (pyInsert i x l).length = l.length + 1 := by
  simp [pyInsert]
  omega

theorem autoWidth_ok (fmt : Format → List Char → List Char) (c : Column)
    (values : List (List Char)) (h : values ≠ []) :
    ∃ w, Column.autoWidth fmt c values = .ok w := by
  unfold Column.autoWidth
  split
  · exact ⟨_, rfl⟩
  · cases values with
    | nil => exact absurd rfl h
    | cons v vs => exact ⟨_, rfl⟩

/-- C3: for every non-empty sequence of values, `Column.format` emits exactly
`len(values) + 2` lines under policy `FRAME`, exactly `2*len(values) + 1`
lines under policy `ALL`, and exactly `len(values)` lines under policy
`NONE`. -/
theorem spec_C3 (c : Column) (fmt : Format → List Char → List Char)
    (values : List (List Char)) (h : values ≠ []) :
    (c.hrule = HRule.FRAME →
      (Column.format fmt c values).map (fun p => p.2.length) =
        .ok (values.length + 2)) ∧
    (c.hrule = HRule.ALL →
      (Column.format fmt c values).map (fun p => p.2.length) =
        .ok (2 * values.length + 1)) ∧
    (c.hrule = HRule.NONE →
      (Column.format fmt c values).map (fun p => p.2.length) =
        .ok values.length) := by
  obtain ⟨w, hw⟩ := autoWidth_ok fmt c values h
  refine ⟨fun hr => ?_, fun hr => ?_, fun hr => ?_⟩ <;>
    (simp [Column.format, hw, updWidth, hr, HRule.toNat, Except.map,
      bodyLines_length, pyInsert_length]; try omega)

/-- C4: under policy `HEADER`, `Column.format` inserts the horizontal rule
immediately after the first rendered line, even when only one value is
supplied; under policy `FRAME_HEADER`, a header rule appears after the
second emitted line only when more than one value is supplied, and with
exactly one value no header rule is inserted while the trailing frame rule
is still appended. -/
theorem spec_C4 (c : Column) (fmt : Format → List Char → List Char)
    (v : List Char) (vs : List (List Char)) (w : List Char)
    (hw : Column.autoWidth fmt c (v :: vs) = .ok w) :
    (c.hrule = HRule.HEADER →
      Column.format fmt c (v :: vs) = .ok (updWidth c w,
        Column.rowLine fmt (updWidth c w) v :: Column.hruleLine fmt (updWidth c w) ::
          vs.map (Column.rowLine fmt (updWidth c w)))) ∧
    (c.hrule = HRule.FRAME_HEADER → vs = [] →
      Column.format fmt c (v :: vs) = .ok (updWidth c w,
        [Column.hruleLine fmt (updWidth c w), Column.rowLine fmt (updWidth c w) v,
          Column.hruleLine fmt (updWidth c w)])) ∧
    (c.hrule = HRule.FRAME_HEADER → vs ≠ [] →
      Column.format fmt c (v :: vs) = .ok (updWidth c w,
        Column.hruleLine fmt (updWidth c w) :: Column.rowLine fmt (updWidth c w) v ::
          Column.hruleLine fmt (updWidth c w) ::
          (vs.map (Column.rowLine fmt (updWidth c w)) ++
            [Column.hruleLine fmt (updWidth c w)]))) := by
  have hu : (updWidth c w).hrule = c.hrule := rfl
  refine ⟨fun hr => ?_, fun hr hvs => ?_, fun hr hvs => ?_⟩
  · simp [Column.format, hw, hu, hr, HRule.toNat, bodyLines_no_extra, pyInsert]
  · subst hvs
    simp [Column.format, hw, hu, hr, HRule.toNat, Column.bodyLines]
  · have hlen : 1 < (v :: vs).length := by
      cases vs with
      | nil => exact absurd rfl hvs
      | cons a as => simp
    simp [Column.format, hw, hu, hr, HRule.toNat, hlen, bodyLines_no_extra, pyInsert,
      List.length_pos, hvs]

/-- C9: `Table` construction fails with a `HeaderMismatchError` when headers
are provided (non-empty: an empty header list is falsy and means "no header
row", §3) and their count differs from the number of column format
strings. -/
theorem spec_C9 (column_formats : List (List Char)) (hs : List (List Char))
    (hrule : HRule) (hf : List Char) (h1 : hs ≠ [])
    (h2 : column_formats.length ≠ hs.length) :
    mkTable column_formats (some hs) hrule hf = .error .headerMismatch := by
  simp [mkTable, h1, h2]

/-- C10: for a `Column` with no explicit width, `Column.format` on the empty
value sequence fails (the width computation takes `max()` of an empty
sequence, a `ValueError`), and `Column.format` succeeds only when the value
sequence is non-empty. -/
theorem spec_C10 (c : Column) (fmt : Format → List Char → List Char)
    (h : c.width = []) :
    Column.format fmt c [] = .error .valueError ∧
    ∀ values p, Column.format fmt c values = .ok p → values ≠ [] := by
  have hbase : Column.format fmt c [] = .error .valueError := by
    simp [Column.format, Column.autoWidth, h]
  refine ⟨hbase, fun values p hp hne => ?_⟩
  subst hne
  rw [hbase] at hp
  exact absurd hp (by simp)

/-- C3 witness: the three line-count laws evaluated at `Column("{}", policy)`
with the single value "a". -/
theorem spec_C3_witness :
    (Column.format renderStr (demoColumn HRule.FRAME) [['a']]).map
        (fun p => p.2.length) = .ok 3 ∧
    (Column.format renderStr (demoColumn HRule.ALL) [['a']]).map
        (fun p => p.2.length) = .ok 3 ∧
    (Column.format renderStr (demoColumn HRule.NONE) [['a']]).map
        (fun p => p.2.length) = .ok 1 :=
  ⟨(spec_C3 (demoColumn HRule.FRAME) renderStr [['a']] (by simp)).1 rfl,
   (spec_C3 (demoColumn HRule.ALL) renderStr [['a']] (by simp)).2.1 rfl,
   (spec_C3 (demoColumn HRule.NONE) renderStr [['a']] (by simp)).2.2 rfl⟩

/-- C4 witness: the `HEADER` insertion with a single value, and the two
`FRAME_HEADER` shapes, evaluated at `Column("{}", policy)`. -/
theorem spec_C4_witness :
    (Column.format renderStr (demoColumn HRule.HEADER) [['a']] =
      .ok (updWidth (demoColumn HRule.HEADER) ['1'],
        Column.rowLine renderStr (updWidth (demoColumn HRule.HEADER) ['1']) ['a'] ::
          Column.hruleLine renderStr (updWidth (demoColumn HRule.HEADER) ['1']) ::
          List.map (Column.rowLine renderStr (updWidth (demoColumn HRule.HEADER) ['1']))
            [])) ∧
    (Column.format renderStr (demoColumn HRule.FRAME_HEADER) [['a']] =
      .ok (updWidth (demoColumn HRule.FRAME_HEADER) ['1'],
        [Column.hruleLine renderStr (updWidth (demoColumn HRule.FRAME_HEADER) ['1']),
          Column.rowLine renderStr (updWidth (demoColumn HRule.FRAME_HEADER) ['1']) ['a'],
          Column.hruleLine renderStr (updWidth (demoColumn HRule.FRAME_HEADER) ['1'])])) ∧
    (Column.format renderStr (demoColumn HRule.FRAME_HEADER) [['a'], ['b']] =
      .ok (updWidth (demoColumn HRule.FRAME_HEADER) ['1'],
        Column.hruleLine renderStr (updWidth (demoColumn HRule.FRAME_HEADER) ['1']) ::
          Column.rowLine renderStr (updWidth (demoColumn HRule.FRAME_HEADER) ['1']) ['a'] ::
          Column.hruleLine renderStr (updWidth (demoColumn HRule.FRAME_HEADER) ['1']) ::
          (List.map (Column.rowLine renderStr (updWidth (demoColumn HRule.FRAME_HEADER) ['1']))
              [['b']] ++
            [Column.hruleLine renderStr (updWidth (demoColumn HRule.FRAME_HEADER) ['1'])]))) :=
  ⟨(spec_C4 (demoColumn HRule.HEADER) renderStr ['a'] [] ['1'] rfl).1 rfl,
   (spec_C4 (demoColumn HRule.FRAME_HEADER) renderStr ['a'] [] ['1'] rfl).2.1 rfl rfl,
   (spec_C4 (demoColumn HRule.FRAME_HEADER) renderStr ['a'] [['b']] ['1'] rfl).2.2 rfl
     (by simp)⟩

/-- C9 witness: three column formats and two headers fail with the
header-mismatch error. -/
theorem spec_C9_witness :
    mkTable [['{', '}'], ['{', '}'], ['{', '}']] (some [['a'], ['b']]) HRule.NONE
      ("+-+".data) = .error .headerMismatch :=
  spec_C9 [['{', '}'], ['{', '}'], ['{', '}']] [['a'], ['b']] HRule.NONE
    ("+-+".data) (by simp) (by simp)

/-- C10 witness: `Column("{}")` with no values fails with the `max()`
`ValueError`. -/
theorem spec_C10_witness :
    Column.format renderStr (demoColumn HRule.NONE) [] = .error .valueError :=
  (spec_C10 (demoColumn HRule.NONE) renderStr rfl).1

/-- C1: the code contradicts the claim (and the class docstring "if `width`
is omitted, content maximum width will be used instead").  For
`Column("{}")` — no explicit width — a first `format(["abc"])` stores width
"3"; a second `format(["x"])` recomputes the maximum over values rendered
under the *current* content spec, whose width is still "3" from the previous
call, so the stored width stays "3" and the value renders as "x  ", while
the maximum length of "x" rendered with width and precision unset is 1 (the
claim predicts width "1"). -/
theorem spec_C1_code_bug :
    (mkColumn ['{', '}'] HRule.NONE ("+-+".data)).bind (fun c0 =>
      (Column.format renderStr c0 [("abc".data)]).bind (fun p =>
        (Column.format renderStr p.1 [("x".data)]).map (fun q =>
          (q.1.content_format.width, q.2)))) = .ok (['3'], [['x', ' ', ' ']]) ∧
    (renderStr demoFormat ("x".data)).length = 1 :=
  ⟨rfl, rfl⟩

/-- C5 counterexample: for `Column("{}")` (no explicit width), after a single
`format(["x"])` call the content spec's width is "1" but its precision is
still "" — `Column.format` assigns only `content_format.width` (line 157),
never `content_format.precision`, so the claimed invariant fails after the
first `format` call on an auto-width column. -/
theorem spec_C5_counterexample :
    (mkColumn ['{', '}'] HRule.NONE ("+-+".data)).bind (fun c0 =>
      (Column.format renderStr c0 [("x".data)]).map (fun p =>
        (p.1.content_format.width, p.1.content_format.precision))) =
      .ok (['1'], ([] : List Char)) ∧
    (['1'] : List Char) ≠ [] :=
  ⟨rfl, by simp⟩

/-- C5 amended: the content spec's precision equals its width immediately
after construction; a `format` call never changes the precision, and it
restores the width to the construction-time width exactly when an explicit
width was given — so the equality persists across `format` calls for
explicit-width columns, while for auto-width columns the width is set to the
computed maximum and the precision stays unset. -/
theorem spec_C5_amended (fstr : List Char) (hrule : HRule) (hf : List Char)
    (c : Column) (hc : mkColumn fstr hrule hf = .ok c) :
    (c.content_format.precision = c.content_format.width ∧
      c.width = c.content_format.width) ∧
    ∀ fmt values c' out, Column.format fmt c values = .ok (c', out) →
      c'.content_format.precision = c.content_format.precision ∧
      (c.width ≠ [] → c'.content_format.width = c.width) := by
  constructor
  · unfold mkColumn at hc
    split at hc
    · exact absurd hc (by simp)
    · split at hc
      · exact absurd hc (by simp)
      · split at hc
        · rw [Except.ok.injEq] at hc
          subst hc
          exact ⟨rfl, rfl⟩
        · exact absurd hc (by simp)
  · intro fmt values c' out hfor
    unfold Column.format at hfor
    split at hfor
    · exact absurd hfor (by simp)
    · rename_i w hw
      rw [Except.ok.injEq, Prod.mk.injEq] at hfor
      obtain ⟨hc', -⟩ := hfor
      subst hc'
      refine ⟨rfl, fun hwid => ?_⟩
      unfold Column.autoWidth at hw
      rw [if_pos hwid, Except.ok.injEq] at hw
      subst hw
      rfl

/-- C5 witness: the amended statement evaluated at `Column("{:3}")` (explicit
width, where the equality persists) and at one of its `format` calls. -/
theorem spec_C5_witness :
    demoColumn3.content_format.precision = demoColumn3.content_format.width ∧
    (updWidth demoColumn3 ['3']).content_format.precision =
      demoColumn3.content_format.precision :=
  ⟨(spec_C5_amended ['{', ':', '3', '}'] HRule.NONE ("+-+".data) demoColumn3
      rfl).1.1,
   ((spec_C5_amended ['{', ':', '3', '}'] HRule.NONE ("+-+".data) demoColumn3
      rfl).2 renderStr [("ab".data)] (updWidth demoColumn3 ['3'])
      [['a', 'b', ' ']] rfl).1⟩

/-- C6 counterexample: a two-column table given the ragged row-major input
`[["ab"], ["c", "d"]]` (row lengths 1 and 2) does not fail: `zip(*rows)`
silently truncates to the shortest row, producing the single column
`["ab", "c"]`, and `format_rows` returns the text "ab\nc " instead of
raising a `RowCountMismatchError`. -/
theorem spec_C6_counterexample :
    (mkTable [['{', '}'], ['{', '}']] none HRule.NONE ("+-+".data)).bind (fun t =>
      Table.format_rows renderStr t [[("ab".data)], [("c".data), ("d".data)]]) =
      .ok ("ab\nc ".data) ∧
    ([("ab".data)] : List (List Char)).length ≠
      ([("c".data), ("d".data)] : List (List Char)).length :=
  ⟨rfl, by simp⟩

/-! Lemmas about `minRowLen` and `pyTranspose`. -/

theorem foldl_min_le_init {α : Type} (rest : List (List α)) (a : Nat) :
    rest.foldl (fun x s => Nat.min x s.length) a ≤ a := by
  induction rest generalizing a with
  | nil => simp
  | cons r t ih => exact le_trans (ih _) (Nat.min_le_left _ _)

theorem foldl_min_le_mem {α : Type} (rest : List (List α)) (a : Nat) (r : List α)
    (hr : r ∈ rest) :
    rest.foldl (fun x s => Nat.min x s.length) a ≤ r.length := by
  induction rest generalizing a with
  | nil => cases hr
  | cons s t ih =>
    rcases List.mem_cons.mp hr with h | h
    · subst h
      exact le_trans (foldl_min_le_init t _) (Nat.min_le_right _ _)
    · exact ih _ h

theorem minRowLen_le {α : Type} (rows : List (List α)) (r : List α) (hr : r ∈ rows) :
    minRowLen rows ≤ r.length := by
  cases rows with
  | nil => cases hr
  | cons s t =>
    rcases List.mem_cons.mp hr with h | h
    · subst h
      exact foldl_min_le_init t _
    · exact foldl_min_le_mem t _ _ h

theorem foldl_min_const {α : Type} (t : List (List α)) (n : Nat)
    (h : ∀ r ∈ t, r.length = n) :
    t.foldl (fun x s => Nat.min x s.length) n = n := by
  induction t with
  | nil => rfl
  | cons s t ih =>
    have hs : s.length = n := h s (by simp)
    have ht : ∀ r ∈ t, r.length = n := fun r hr => h r (by simp [hr])
    simpa [hs] using ih ht

theorem minRowLen_uniform {α : Type} (rows : List (List α)) (n : Nat)
    (h : ∀ r ∈ rows, r.length = n) (hne : rows ≠ []) : minRowLen rows = n := by
  cases rows with
  | nil => exact absurd rfl hne
  | cons s t =>
    have hs : s.length = n := h s (by simp)
    have ht : ∀ r ∈ t, r.length = n := fun r hr => h r (by simp [hr])
    have hdef : minRowLen (s :: t) = t.foldl (fun x u => Nat.min x u.length) s.length := rfl
    rw [hdef, hs]
    exact foldl_min_const t n ht

theorem getD_take {α : Type} [Inhabited α] (r : List α) (m j : Nat) (h : j < m) :
    (r.take m).getD j default = r.getD j default := by
  induction r generalizing m j with
  | nil => simp
  | cons a t ih =>
    cases m with
    | zero => omega
    | succ m' =>
      cases j with
      | zero => simp
      | succ j' => simpa using ih m' j' (by omega)

theorem pyTranspose_truncate {α : Type} [Inhabited α] (rows : List (List α)) :
    pyTranspose rows = pyTranspose (rows.map (fun r => r.take (minRowLen rows))) := by
  cases rows with
  | nil => rfl
  | cons r0 rest =>
    have hle : ∀ r ∈ r0 :: rest, minRowLen (r0 :: rest) ≤ r.length :=
      fun r hr => minRowLen_le _ r hr
    have huni : ∀ s ∈ (r0 :: rest).map (fun r => r.take (minRowLen (r0 :: rest))),
        s.length = minRowLen (r0 :: rest) := by
      intro s hs
      obtain ⟨r, hr, rfl⟩ := List.mem_map.mp hs
      simp only [List.length_take]
      exact Nat.min_eq_left (hle r hr)
    have hmin2 : minRowLen ((r0 :: rest).map (fun r => r.take (minRowLen (r0 :: rest)))) =
        minRowLen (r0 :: rest) :=
      minRowLen_uniform _ _ huni (by simp)
    simp only [pyTranspose, hmin2]
    refine List.map_congr_left (fun j hj => ?_)
    have hjm : j < minRowLen (r0 :: rest) := List.mem_range.mp hj
    rw [List.map_map]
    refine List.map_congr_left (fun r hr => ?_)
    simp only [Function.comp_apply]
    exact (getD_take r _ j hjm).symm

/-- C6 amended: `Table.format_rows` never detects ragged row lengths; the
`zip(*rows)` transposition silently truncates every row to the length of the
shortest row (dropping any value beyond it), so `format_rows` on any input
returns exactly what it returns on the input with every row truncated to
the minimum row length.  (`Table.format` is the operation that raises the
`RowCountMismatchError`, via its strict zip over per-column line counts.) -/
theorem spec_C6_amended (t : Table) (fmt : Format → List Char → List Char)
    (rows : List (List (List Char))) :
    Table.format_rows fmt t rows =
      Table.format_rows fmt t (rows.map (fun r => r.take (minRowLen rows))) := by
  unfold Table.format_rows
  rw [← pyTranspose_truncate]

/-- C7: for every table and every row-major input whose rows each have one
value per column, `Table.format_rows` returns exactly what `Table.format`
returns on the column-major transpose of the rows. -/
theorem spec_C7 (t : Table) (fmt : Format → List Char → List Char)
    (rows : List (List (List Char)))
    (h : ∀ r ∈ rows, r.length = t.columns.length) :
    Table.format_rows fmt t rows = Table.format fmt t (colMajorTranspose rows) := by
  unfold Table.format_rows
  congr 1
  cases rows with
  | nil => rfl
  | cons r0 rest =>
    have h0 : r0.length = t.columns.length := h r0 (by simp)
    have hmin : minRowLen (r0 :: rest) = t.columns.length :=
      minRowLen_uniform _ _ h (by simp)
    simp only [pyTranspose, colMajorTranspose, hmin, h0]

/-- C7 witness: a one-column table formatting the single row ["a"]. -/
theorem spec_C7_witness :
    Table.format_rows renderStr demoTable [[['a']]] =
      Table.format renderStr demoTable (colMajorTranspose [[['a']]]) :=
  spec_C7 demoTable renderStr [[['a']]] (by simp [demoTable])

/-! Lemmas about the format-specification matchers, towards the round-trip
property (C2) and the grammar characterization of parse failure (C8). -/

theorem dropWhile_head_not (p : Char → Bool) (l : List Char) :
    ∀ c, (l.dropWhile p).head? = some c → ¬ p c = true := by
  induction l with
  | nil => simp
  | cons a t ih =>
    intro c hc
    rw [List.dropWhile_cons] at hc
    by_cases hp : p a = true
    · rw [if_pos hp] at hc
      exact ih c hc
    · rw [if_neg hp] at hc
      simp only [List.head?_cons, Option.some.injEq] at hc
      subst hc
      exact hp

theorem span_cases (p : Char → Bool) (l m r : List Char) (h : l.span p = (m, r)) :
    l = m ++ r ∧ (∀ c ∈ m, p c) ∧ (∀ c, r.head? = some c → ¬ p c = true) := by
  rw [List.span_eq_take_drop, Prod.mk.injEq] at h
  obtain ⟨hm, hr⟩ := h
  subst hm
  subst hr
  exact ⟨(List.takeWhile_append_dropWhile p l).symm,
    fun c hc => List.mem_takeWhile_imp hc, dropWhile_head_not p l⟩

theorem matchFillAlign_cases (s fl al r : List Char)
    (h : matchFillAlign s = (fl, al, r)) :
    s = fl ++ al ++ r ∧
    ((fl = [] ∧ (al = [] ∨ ∃ c ∈ alignChars, al = [c])) ∨
      (∃ c0, ∃ c1 ∈ alignChars, c0 ≠ '\n' ∧ fl = [c0] ∧ al = [c1])) := by
  match s with
  | [] =>
    simp only [matchFillAlign, Prod.mk.injEq] at h
    obtain ⟨h1, h2, h3⟩ := h
    subst h1; subst h2; subst h3
    simp
  | [c] =>
    by_cases hc : c ∈ alignChars
    · simp only [matchFillAlign, if_pos hc, Prod.mk.injEq] at h
      obtain ⟨h1, h2, h3⟩ := h
      subst h1; subst h2; subst h3
      exact ⟨rfl, Or.inl ⟨rfl, Or.inr ⟨c, hc, rfl⟩⟩⟩
    · simp only [matchFillAlign, if_neg hc, Prod.mk.injEq] at h
      obtain ⟨h1, h2, h3⟩ := h
      subst h1; subst h2; subst h3
      simp
  | c0 :: c1 :: t =>
    by_cases h1 : c0 ≠ '\n' ∧ c1 ∈ alignChars
    · simp only [matchFillAlign, if_pos h1, Prod.mk.injEq] at h
      obtain ⟨e1, e2, e3⟩ := h
      subst e1; subst e2; subst e3
      exact ⟨rfl, Or.inr ⟨c0, c1, h1.2, h1.1, rfl, rfl⟩⟩
    · by_cases h2 : c0 ∈ alignChars
      · simp only [matchFillAlign, if_neg h1, if_pos h2, Prod.mk.injEq] at h
        obtain ⟨e1, e2, e3⟩ := h
        subst e1; subst e2; subst e3
        exact ⟨rfl, Or.inl ⟨rfl, Or.inr ⟨c0, h2, rfl⟩⟩⟩
      · simp only [matchFillAlign, if_neg h1, if_neg h2, Prod.mk.injEq] at h
        obtain ⟨e1, e2, e3⟩ := h
        subst e1; subst e2; subst e3
        simp

theorem matchOneOf_cases (cs l m r : List Char) (h : matchOneOf cs l = (m, r)) :
    l = m ++ r ∧ (m = [] ∨ ∃ c ∈ cs, m = [c]) ∧
    (m = [] → ∀ c, l.head? = some c → c ∉ cs) := by
  match l with
  | [] =>
    simp only [matchOneOf, Prod.mk.injEq] at h
    obtain ⟨h1, h2⟩ := h
    subst h1; subst h2
    simp
  | c :: t =>
    by_cases hc : c ∈ cs
    · simp only [matchOneOf, if_pos hc, Prod.mk.injEq] at h
      obtain ⟨h1, h2⟩ := h
      subst h1; subst h2
      exact ⟨rfl, Or.inr ⟨c, hc, rfl⟩, by simp⟩
    · simp only [matchOneOf, if_neg hc, Prod.mk.injEq] at h
      obtain ⟨h1, h2⟩ := h
      subst h1; subst h2
      refine ⟨rfl, Or.inl rfl, fun _ d hd => ?_⟩
      simp only [List.head?_cons, Option.some.injEq] at hd
      subst hd
      exact hc

theorem matchPrecision_cases (l m r : List Char) (h : matchPrecision l = (m, r)) :
    l = (if m = [] then [] else '.' :: m) ++ r ∧ (∀ c ∈ m, Char.isDigit c) ∧
    (m = [] → r = l) := by
  match l with
  | [] =>
    simp only [matchPrecision, Prod.mk.injEq] at h
    obtain ⟨h1, h2⟩ := h
    subst h1; subst h2
    simp
  | c :: t =>
    by_cases hc : c = '.'
    · subst hc
      obtain ⟨m0, r0, hsp⟩ : ∃ m0 r0, t.span Char.isDigit = (m0, r0) := ⟨_, _, rfl⟩
      obtain ⟨ht, hdig, -⟩ := span_cases _ _ _ _ hsp
      have hred : matchPrecision ('.' :: t) =
          if m0 = [] then ([], '.' :: t) else (m0, r0) := by
        have hstep : matchPrecision ('.' :: t) =
            if (t.span Char.isDigit).1 = [] then ([], '.' :: t)
            else ((t.span Char.isDigit).1, (t.span Char.isDigit).2) := rfl
        rw [hstep, hsp]
      rw [hred] at h
      by_cases hm0 : m0 = []
      · rw [if_pos hm0, Prod.mk.injEq] at h
        obtain ⟨h1, h2⟩ := h
        subst h1; subst h2
        simp
      · rw [if_neg hm0, Prod.mk.injEq] at h
        obtain ⟨h1, h2⟩ := h
        subst h1; subst h2
        refine ⟨?_, hdig, fun hm => absurd hm hm0⟩
        rw [if_neg hm0]
        simpa using ht
    · simp only [matchPrecision, if_neg hc, Prod.mk.injEq] at h
      obtain ⟨h1, h2⟩ := h
      subst h1; subst h2
      simp

theorem parseFormat_some (s : List Char) (f : Format) (h : parseFormat s = some f) :
    runFormat s = (f, []) := by
  unfold parseFormat at h
  split at h
  · rename_i g rest heq
    simp only [Option.some.injEq] at h
    subst h
    exact heq
  · exact absurd h (by simp)

theorem runFormat_shape (s : List Char) :
    (runFormat s).1.WF ∧ s = (runFormat s).1.specString ++ (runFormat s).2 := by
  obtain ⟨fl, al, s1, hfa⟩ : ∃ fl al s1, matchFillAlign s = (fl, al, s1) := ⟨_, _, _, rfl⟩
  obtain ⟨sg, s2, hsg⟩ : ∃ sg s2, matchOneOf signChars s1 = (sg, s2) := ⟨_, _, rfl⟩
  obtain ⟨zz, s3, hzz⟩ : ∃ zz s3, matchOneOf ['z'] s2 = (zz, s3) := ⟨_, _, rfl⟩
  obtain ⟨aa, s4, haa⟩ : ∃ aa s4, matchOneOf ['#'] s3 = (aa, s4) := ⟨_, _, rfl⟩
  obtain ⟨zr, s5, hzr⟩ : ∃ zr s5, matchOneOf ['0'] s4 = (zr, s5) := ⟨_, _, rfl⟩
  obtain ⟨wd, s6, hwd⟩ : ∃ wd s6, s5.span Char.isDigit = (wd, s6) := ⟨_, _, rfl⟩
  obtain ⟨gr, s7, hgr⟩ : ∃ gr s7, matchOneOf [',', '_'] s6 = (gr, s7) := ⟨_, _, rfl⟩
  obtain ⟨pr, s8, hpr⟩ : ∃ pr s8, matchPrecision s7 = (pr, s8) := ⟨_, _, rfl⟩
  obtain ⟨ty, s9, hty⟩ : ∃ ty s9, matchOneOf typeChars s8 = (ty, s9) := ⟨_, _, rfl⟩
  have hrun : runFormat s = (⟨fl, al, sg, zz, aa, zr, wd, gr, pr, ty⟩, s9) := by
    simp only [runFormat, hfa, hsg, hzz, haa, hzr, hwd, hgr, hpr, hty]
  obtain ⟨e0, hfashape⟩ := matchFillAlign_cases s fl al s1 hfa
  obtain ⟨e1, hsgshape, -⟩ := matchOneOf_cases _ _ _ _ hsg
  obtain ⟨e2, hzzshape, -⟩ := matchOneOf_cases _ _ _ _ hzz
  obtain ⟨e3, haashape, -⟩ := matchOneOf_cases _ _ _ _ haa
  obtain ⟨e4, hzrshape, hzrhead⟩ := matchOneOf_cases _ _ _ _ hzr
  obtain ⟨e5, hwdshape, -⟩ := span_cases _ _ _ _ hwd
  obtain ⟨e6, hgrshape, -⟩ := matchOneOf_cases _ _ _ _ hgr
  obtain ⟨e7, hprshape, -⟩ := matchPrecision_cases _ _ _ hpr
  obtain ⟨e8, htyshape, -⟩ := matchOneOf_cases _ _ _ _ hty
  have hzz2 : zz = [] ∨ zz = ['z'] := by
    rcases hzzshape with h | ⟨c, hc, h⟩
    · exact Or.inl h
    · simp only [List.mem_singleton] at hc
      subst hc
      exact Or.inr h
  have haa2 : aa = [] ∨ aa = ['#'] := by
    rcases haashape with h | ⟨c, hc, h⟩
    · exact Or.inl h
    · simp only [List.mem_singleton] at hc
      subst hc
      exact Or.inr h
  have hzr2 : zr = [] ∨ zr = ['0'] := by
    rcases hzrshape with h | ⟨c, hc, h⟩
    · exact Or.inl h
    · simp only [List.mem_singleton] at hc
      subst hc
      exact Or.inr h
  have hgr2 : gr = [] ∨ gr = [','] ∨ gr = ['_'] := by
    rcases hgrshape with h | ⟨c, hc, h⟩
    · exact Or.inl h
    · simp only [List.mem_cons, List.not_mem_nil, or_false] at hc
      rcases hc with hc | hc <;> subst hc
      · exact Or.inr (Or.inl h)
      · exact Or.inr (Or.inr h)
  have hcoup : zr = [] → wd.head? ≠ some '0' := by
    intro hz0 hw0
    cases hwd0 : wd with
    | nil =>
      rw [hwd0] at hw0
      simp at hw0
    | cons d dt =>
      rw [hwd0] at hw0
      simp only [List.head?_cons, Option.some.injEq] at hw0
      subst hw0
      have h5 : s5.head? = some '0' := by
        rw [e5, hwd0]
        rfl
      have h4 : s4.head? = some '0' := by
        rw [e4, hz0]
        simpa using h5
      exact hzrhead hz0 '0' h4 (by simp)
  have hrecon : s = (fl ++ al ++ sg ++ zz ++ aa ++ zr ++ wd ++ gr ++
      (if pr = [] then [] else '.' :: pr) ++ ty) ++ s9 := by
    rw [e0, e1, e2, e3, e4, e5, e6, e7, e8]
    simp
  rw [hrun]
  exact ⟨⟨hfashape, hsgshape, hzz2, haa2, hzr2, hwdshape, hcoup, hgr2, hprshape,
    htyshape⟩, hrecon⟩

/-! Serialize-direction lemmas: each matcher consumes exactly its component
of a serialized specification and leaves the rest. -/

theorem span_valid (p : Char → Bool) (x : List Char) : ∀ r : List Char,
    (∀ c ∈ x, p c) → (∀ c, r.head? = some c → ¬ p c = true) →
    (x ++ r).span p = (x, r) := by
  induction x with
  | nil =>
    intro r _ hr
    rw [List.nil_append, List.span_eq_take_drop]
    cases r with
    | nil => rfl
    | cons c t =>
      have hc := hr c rfl
      rw [List.takeWhile_cons, List.dropWhile_cons]
      simp [hc]
  | cons d ds ih =>
    intro r hx hr
    have hd : p d = true := hx d (by simp)
    have hds := ih r (fun c hc => hx c (by simp [hc])) hr
    rw [List.span_eq_take_drop] at hds ⊢
    rw [Prod.mk.injEq] at hds ⊢
    obtain ⟨h1, h2⟩ := hds
    rw [List.cons_append, List.takeWhile_cons, List.dropWhile_cons]
    simp [hd, h1, h2]

theorem matchOneOf_valid (cs x r : List Char)
    (hx : x = [] ∨ ∃ c ∈ cs, x = [c])
    (hr : x = [] → ∀ c, r.head? = some c → c ∉ cs) :
    matchOneOf cs (x ++ r) = (x, r) := by
  rcases hx with hx | ⟨c, hc, hx⟩
  · subst hx
    cases r with
    | nil => rfl
    | cons a t =>
      have ha := hr rfl a rfl
      simp [matchOneOf, ha]
  · subst hx
    simp [matchOneOf, hc]

theorem matchFillAlign_valid (fl al r : List Char)
    (hfa : (fl = [] ∧ (al = [] ∨ ∃ c ∈ alignChars, al = [c])) ∨
      (∃ c0, ∃ c1 ∈ alignChars, c0 ≠ '\n' ∧ fl = [c0] ∧ al = [c1]))
    (hr : ∀ c ∈ r, c ∉ alignChars) :
    matchFillAlign (fl ++ al ++ r) = (fl, al, r) := by
  rcases hfa with ⟨hfl, hal⟩ | ⟨c0, c1, hc1, hnl, hfl, hal⟩
  · subst hfl
    rcases hal with hal | ⟨c, hc, hal⟩
    · subst hal
      match r with
      | [] => rfl
      | [c] =>
        have := hr c (by simp)
        simp [matchFillAlign, this]
      | c0 :: c1 :: t =>
        have h0 := hr c0 (by simp)
        have h1 := hr c1 (by simp)
        simp [matchFillAlign, h0, h1]
    · subst hal
      match r with
      | [] => simp [matchFillAlign, hc]
      | a :: t =>
        have ha := hr a (by simp)
        simp [matchFillAlign, hc, ha]
  · subst hfl
    subst hal
    simp [matchFillAlign, hc1, hnl]

theorem matchPrecision_valid (pr ty2 : List Char)
    (hp : ∀ c ∈ pr, Char.isDigit c)
    (hr : ∀ c, ty2.head? = some c → ¬ Char.isDigit c = true ∧ c ≠ '.') :
    matchPrecision ((if pr = [] then [] else '.' :: pr) ++ ty2) = (pr, ty2) := by
  by_cases hpr : pr = []
  · subst hpr
    rw [if_pos rfl, List.nil_append]
    cases ty2 with
    | nil => rfl
    | cons a t =>
      obtain ⟨-, hadot⟩ := hr a rfl
      simp [matchPrecision, hadot]
  · rw [if_neg hpr, List.cons_append]
    have hsp := span_valid Char.isDigit pr ty2 hp (fun c hc => (hr c hc).1)
    have hstep : matchPrecision ('.' :: (pr ++ ty2)) =
        if ((pr ++ ty2).span Char.isDigit).1 = [] then ([], '.' :: (pr ++ ty2))
        else (((pr ++ ty2).span Char.isDigit).1, ((pr ++ ty2).span Char.isDigit).2) := rfl
    rw [hstep, hsp]
    simp [hpr]

/-! Character-class facts separating the grammar's components. -/

theorem mem_typeChars_props : ∀ c ∈ typeChars, c ∉ signChars ∧ c ∉ alignChars ∧
    c ≠ 'z' ∧ c ≠ '#' ∧ c ≠ '0' ∧ ¬ Char.isDigit c = true ∧ c ≠ '.' ∧
    c ∉ ([',', '_'] : List Char) := by decide

theorem digit_props (c : Char) (h : Char.isDigit c = true) :
    c ∉ signChars ∧ c ∉ alignChars ∧ c ≠ 'z' ∧ c ≠ '#' ∧
    c ∉ ([',', '_'] : List Char) ∧ c ≠ '.' := by
  refine ⟨fun hc => ?_, fun hc => ?_, fun hc => ?_, fun hc => ?_, fun hc => ?_,
    fun hc => ?_⟩
  · simp only [signChars, List.mem_cons, List.not_mem_nil, or_false] at hc
    rcases hc with rfl | rfl | rfl <;> exact absurd h (by decide)
  · simp only [alignChars, List.mem_cons, List.not_mem_nil, or_false] at hc
    rcases hc with rfl | rfl | rfl | rfl <;> exact absurd h (by decide)
  · subst hc
    exact absurd h (by decide)
  · subst hc
    exact absurd h (by decide)
  · simp only [List.mem_cons, List.not_mem_nil, or_false] at hc
    rcases hc with rfl | rfl <;> exact absurd h (by decide)
  · subst hc
    exact absurd h (by decide)

/-! Head-character classification for each suffix of a serialized
specification. -/

theorem headS8_class (pr ty2 : List Char)
    (hty : ty2 = [] ∨ ∃ c ∈ typeChars, ty2 = [c]) :
    ∀ c, ((if pr = [] then [] else '.' :: pr) ++ ty2).head? = some c →
      c = '.' ∨ c ∈ typeChars := by
  intro c hc
  by_cases hpr : pr = []
  · rw [if_pos hpr, List.nil_append] at hc
    right
    rcases hty with h | ⟨d, hd, h⟩
    · rw [h] at hc
      simp at hc
    · rw [h] at hc
      simp only [List.head?_cons, Option.some.injEq] at hc
      subst hc
      exact hd
  · rw [if_neg hpr, List.cons_append] at hc
    simp only [List.head?_cons, Option.some.injEq] at hc
    subst hc
    exact Or.inl rfl

theorem headS7_class (gr pr ty2 : List Char)
    (hgr : gr = [] ∨ gr = [','] ∨ gr = ['_'])
    (hty : ty2 = [] ∨ ∃ c ∈ typeChars, ty2 = [c]) :
    ∀ c, (gr ++ ((if pr = [] then [] else '.' :: pr) ++ ty2)).head? = some c →
      c = ',' ∨ c = '_' ∨ c = '.' ∨ c ∈ typeChars := by
  intro c hc
  rcases hgr with h | h | h
  · rw [h, List.nil_append] at hc
    rcases headS8_class pr ty2 hty c hc with h | h
    · exact Or.inr (Or.inr (Or.inl h))
    · exact Or.inr (Or.inr (Or.inr h))
  · rw [h] at hc
    simp only [List.cons_append, List.nil_append, List.head?_cons,
      Option.some.injEq] at hc
    subst hc
    exact Or.inl rfl
  · rw [h] at hc
    simp only [List.cons_append, List.nil_append, List.head?_cons,
      Option.some.injEq] at hc
    subst hc
    exact Or.inr (Or.inl rfl)

theorem headS6_class (wd gr pr ty2 : List Char)
    (hwd : ∀ c ∈ wd, Char.isDigit c)
    (hgr : gr = [] ∨ gr = [','] ∨ gr = ['_'])
    (hty : ty2 = [] ∨ ∃ c ∈ typeChars, ty2 = [c]) :
    ∀ c, (wd ++ (gr ++ ((if pr = [] then [] else '.' :: pr) ++ ty2))).head? =
        some c →
      Char.isDigit c = true ∨ c = ',' ∨ c = '_' ∨ c = '.' ∨ c ∈ typeChars := by
  intro c hc
  cases wd with
  | nil =>
    rw [List.nil_append] at hc
    exact Or.inr (headS7_class gr pr ty2 hgr hty c hc)
  | cons d dt =>
    simp only [List.cons_append, List.head?_cons, Option.some.injEq] at hc
    subst hc
    exact Or.inl (hwd d (by simp))

theorem headS5_class (zr wd gr pr ty2 : List Char)
    (hzr : zr = [] ∨ zr = ['0'])
    (hwd : ∀ c ∈ wd, Char.isDigit c)
    (hgr : gr = [] ∨ gr = [','] ∨ gr = ['_'])
    (hty : ty2 = [] ∨ ∃ c ∈ typeChars, ty2 = [c]) :
    ∀ c, (zr ++ (wd ++ (gr ++ ((if pr = [] then [] else '.' :: pr) ++
        ty2)))).head? = some c →
      c = '0' ∨ Char.isDigit c = true ∨ c = ',' ∨ c = '_' ∨ c = '.' ∨
        c ∈ typeChars := by
  intro c hc
  rcases hzr with h | h
  · rw [h, List.nil_append] at hc
    exact Or.inr (headS6_class wd gr pr ty2 hwd hgr hty c hc)
  · rw [h] at hc
    simp only [List.cons_append, List.nil_append, List.head?_cons,
      Option.some.injEq] at hc
    subst hc
    exact Or.inl rfl

theorem headS4_class (aa zr wd gr pr ty2 : List Char)
    (haa : aa = [] ∨ aa = ['#'])
    (hzr : zr = [] ∨ zr = ['0'])
    (hwd : ∀ c ∈ wd, Char.isDigit c)
    (hgr : gr = [] ∨ gr = [','] ∨ gr = ['_'])
    (hty : ty2 = [] ∨ ∃ c ∈ typeChars, ty2 = [c]) :
    ∀ c, (aa ++ (zr ++ (wd ++ (gr ++ ((if pr = [] then [] else '.' :: pr) ++
        ty2))))).head? = some c →
      c = '#' ∨ c = '0' ∨ Char.isDigit c = true ∨ c = ',' ∨ c = '_' ∨ c = '.' ∨
        c ∈ typeChars := by
  intro c hc
  rcases haa with h | h
  · rw [h, List.nil_append] at hc
    exact Or.inr (headS5_class zr wd gr pr ty2 hzr hwd hgr hty c hc)
  · rw [h] at hc
    simp only [List.cons_append, List.nil_append, List.head?_cons,
      Option.some.injEq] at hc
    subst hc
    exact Or.inl rfl

theorem headS3_class (zz aa zr wd gr pr ty2 : List Char)
    (hzz : zz = [] ∨ zz = ['z'])
    (haa : aa = [] ∨ aa = ['#'])
    (hzr : zr = [] ∨ zr = ['0'])
    (hwd : ∀ c ∈ wd, Char.isDigit c)
    (hgr : gr = [] ∨ gr = [','] ∨ gr = ['_'])
    (hty : ty2 = [] ∨ ∃ c ∈ typeChars, ty2 = [c]) :
    ∀ c, (zz ++ (aa ++ (zr ++ (wd ++ (gr ++ ((if pr = [] then []
        else '.' :: pr) ++ ty2)))))).head? = some c →
      c = 'z' ∨ c = '#' ∨ c = '0' ∨ Char.isDigit c = true ∨ c = ',' ∨ c = '_' ∨
        c = '.' ∨ c ∈ typeChars := by
  intro c hc
  rcases hzz with h | h
  · rw [h, List.nil_append] at hc
    exact Or.inr (headS4_class aa zr wd gr pr ty2 haa hzr hwd hgr hty c hc)
  · rw [h] at hc
    simp only [List.cons_append, List.nil_append, List.head?_cons,
      Option.some.injEq] at hc
    subst hc
    exact Or.inl rfl

theorem sign_not_align : ∀ c ∈ signChars, c ∉ alignChars := by decide

/-- The serialized specification string with all appends grouped to the
right, matching the order in which the matchers consume it. -/
theorem specString_assoc (f : Format) : f.specString =
    f.fill ++ (f.align ++ (f.sign ++ (f.z ++ (f.alt ++ (f.zero ++ (f.width ++
      (f.grouping_option ++ ((if f.precision = [] then []
        else '.' :: f.precision) ++ f.type)))))))) := by
  simp [Format.specString, List.append_assoc]

/-- Greedily re-parsing the serialization of a well-formed specification
recovers exactly the specification, with nothing left over. -/
theorem parse_specString (f : Format) (h : f.WF) :
    runFormat f.specString = (f, []) := by
  obtain ⟨hfa, hsg, hzz, haa, hzr, hwd, hcoup, hgr, hpr, hty⟩ := h
  have tyE : matchOneOf typeChars f.type = (f.type, []) := by
    have := matchOneOf_valid typeChars f.type [] hty (fun _ c hc => by simp at hc)
    simpa using this
  have prHr : ∀ c, f.type.head? = some c → ¬ Char.isDigit c = true ∧ c ≠ '.' := by
    intro c hc
    rcases hty with h | ⟨d, hd, h⟩
    · rw [h] at hc
      simp at hc
    · rw [h] at hc
      simp only [List.head?_cons, Option.some.injEq] at hc
      subst hc
      obtain ⟨-, -, -, -, -, h6, h7, -⟩ := mem_typeChars_props d hd
      exact ⟨h6, h7⟩
  have prE : matchPrecision ((if f.precision = [] then []
      else '.' :: f.precision) ++ f.type) = (f.precision, f.type) :=
    matchPrecision_valid f.precision f.type hpr prHr
  have grShape : f.grouping_option = [] ∨ ∃ c ∈ ([',', '_'] : List Char),
      f.grouping_option = [c] := by
    rcases hgr with h | h | h
    · exact Or.inl h
    · exact Or.inr ⟨',', by simp, h⟩
    · exact Or.inr ⟨'_', by simp, h⟩
  have grHr : f.grouping_option = [] → ∀ c,
      ((if f.precision = [] then [] else '.' :: f.precision) ++ f.type).head? =
        some c → c ∉ ([',', '_'] : List Char) := by
    intro _ c hc
    rcases headS8_class f.precision f.type hty c hc with h | h
    · subst h
      decide
    · exact (mem_typeChars_props c h).2.2.2.2.2.2.2
  have grE : matchOneOf [',', '_'] (f.grouping_option ++
      ((if f.precision = [] then [] else '.' :: f.precision) ++ f.type)) =
      (f.grouping_option,
        (if f.precision = [] then [] else '.' :: f.precision) ++ f.type) :=
    matchOneOf_valid _ _ _ grShape grHr
  have wdHr : ∀ c, (f.grouping_option ++
      ((if f.precision = [] then [] else '.' :: f.precision) ++ f.type)).head? =
        some c → ¬ Char.isDigit c = true := by
    intro c hc
    rcases headS7_class _ _ _ hgr hty c hc with h | h | h | h
    · subst h
      decide
    · subst h
      decide
    · subst h
      decide
    · exact (mem_typeChars_props c h).2.2.2.2.2.1
  have wdE : (f.width ++ (f.grouping_option ++
      ((if f.precision = [] then [] else '.' :: f.precision) ++ f.type))).span
        Char.isDigit =
      (f.width, f.grouping_option ++
        ((if f.precision = [] then [] else '.' :: f.precision) ++ f.type)) :=
    span_valid Char.isDigit f.width _ hwd wdHr
  have zrShape : f.zero = [] ∨ ∃ c ∈ (['0'] : List Char), f.zero = [c] := by
    rcases hzr with h | h
    · exact Or.inl h
    · exact Or.inr ⟨'0', by simp, h⟩
  have zrHr : f.zero = [] → ∀ c, (f.width ++ (f.grouping_option ++
      ((if f.precision = [] then [] else '.' :: f.precision) ++
        f.type))).head? = some c → c ∉ (['0'] : List Char) := by
    intro hz c hc hc0
    simp only [List.mem_singleton] at hc0
    subst hc0
    rcases hq : f.width with _ | ⟨d, dt⟩
    · rw [hq, List.nil_append] at hc
      rcases headS7_class _ _ _ hgr hty '0' hc with h | h | h | h
      · exact absurd h (by decide)
      · exact absurd h (by decide)
      · exact absurd h (by decide)
      · exact (mem_typeChars_props '0' h).2.2.2.2.1 rfl
    · rw [hq] at hc
      simp only [List.cons_append, List.head?_cons, Option.some.injEq] at hc
      subst hc
      exact hcoup hz (by rw [hq]; simp)
  have zrE : matchOneOf ['0'] (f.zero ++ (f.width ++ (f.grouping_option ++
      ((if f.precision = [] then [] else '.' :: f.precision) ++ f.type)))) =
      (f.zero, f.width ++ (f.grouping_option ++
        ((if f.precision = [] then [] else '.' :: f.precision) ++ f.type))) :=
    matchOneOf_valid _ _ _ zrShape zrHr
  have aaShape : f.alt = [] ∨ ∃ c ∈ (['#'] : List Char), f.alt = [c] := by
    rcases haa with h | h
    · exact Or.inl h
    · exact Or.inr ⟨'#', by simp, h⟩
  have aaHr : f.alt = [] → ∀ c, (f.zero ++ (f.width ++ (f.grouping_option ++
      ((if f.precision = [] then [] else '.' :: f.precision) ++
        f.type)))).head? = some c → c ∉ (['#'] : List Char) := by
    intro _ c hc hcm
    simp only [List.mem_singleton] at hcm
    subst hcm
    rcases headS5_class _ _ _ _ _ hzr hwd hgr hty '#' hc with h | h | h | h | h | h
    · exact absurd h (by decide)
    · exact absurd h (by decide)
    · exact absurd h (by decide)
    · exact absurd h (by decide)
    · exact absurd h (by decide)
    · exact (mem_typeChars_props '#' h).2.2.2.1 rfl
  have aaE : matchOneOf ['#'] (f.alt ++ (f.zero ++ (f.width ++
      (f.grouping_option ++
      ((if f.precision = [] then [] else '.' :: f.precision) ++ f.type))))) =
      (f.alt, f.zero ++ (f.width ++ (f.grouping_option ++
        ((if f.precision = [] then [] else '.' :: f.precision) ++ f.type)))) :=
    matchOneOf_valid _ _ _ aaShape aaHr
  have zzShape : f.z = [] ∨ ∃ c ∈ (['z'] : List Char), f.z = [c] := by
    rcases hzz with h | h
    · exact Or.inl h
    · exact Or.inr ⟨'z', by simp, h⟩
  have zzHr : f.z = [] → ∀ c, (f.alt ++ (f.zero ++ (f.width ++
      (f.grouping_option ++
      ((if f.precision = [] then [] else '.' :: f.precision) ++
        f.type))))).head? = some c → c ∉ (['z'] : List Char) := by
    intro _ c hc hcm
    simp only [List.mem_singleton] at hcm
    subst hcm
    rcases headS4_class _ _ _ _ _ _ haa hzr hwd hgr hty 'z' hc with
      h | h | h | h | h | h | h
    · exact absurd h (by decide)
    · exact absurd h (by decide)
    · exact absurd h (by decide)
    · exact absurd h (by decide)
    · exact absurd h (by decide)
    · exact absurd h (by decide)
    · exact (mem_typeChars_props 'z' h).2.2.1 rfl
  have zzE : matchOneOf ['z'] (f.z ++ (f.alt ++ (f.zero ++ (f.width ++
      (f.grouping_option ++
      ((if f.precision = [] then [] else '.' :: f.precision) ++ f.type)))))) =
      (f.z, f.alt ++ (f.zero ++ (f.width ++ (f.grouping_option ++
        ((if f.precision = [] then [] else '.' :: f.precision) ++ f.type))))) :=
    matchOneOf_valid _ _ _ zzShape zzHr
  have sgHr : f.sign = [] → ∀ c, (f.z ++ (f.alt ++ (f.zero ++ (f.width ++
      (f.grouping_option ++
      ((if f.precision = [] then [] else '.' :: f.precision) ++
        f.type)))))).head? = some c → c ∉ signChars := by
    intro _ c hc
    rcases headS3_class _ _ _ _ _ _ _ hzz haa hzr hwd hgr hty c hc with
      h | h | h | h | h | h | h | h
    · subst h
      decide
    · subst h
      decide
    · subst h
      decide
    · exact (digit_props c h).1
    · subst h
      decide
    · subst h
      decide
    · subst h
      decide
    · exact (mem_typeChars_props c h).1
  have sgE : matchOneOf signChars (f.sign ++ (f.z ++ (f.alt ++ (f.zero ++
      (f.width ++ (f.grouping_option ++
      ((if f.precision = [] then [] else '.' :: f.precision) ++ f.type))))))) =
      (f.sign, f.z ++ (f.alt ++ (f.zero ++ (f.width ++ (f.grouping_option ++
        ((if f.precision = [] then [] else '.' :: f.precision) ++ f.type)))))) :=
    matchOneOf_valid _ _ _ hsg sgHr
  have faMem : ∀ c ∈ (f.sign ++ (f.z ++ (f.alt ++ (f.zero ++ (f.width ++
      (f.grouping_option ++
      ((if f.precision = [] then [] else '.' :: f.precision) ++ f.type))))))),
      c ∉ alignChars := by
    intro c hc
    simp only [List.mem_append] at hc
    rcases hc with h | h | h | h | h | h | h | h
    · rcases hsg with hs | ⟨d, hd, hs⟩
      · rw [hs] at h
        simp at h
      · rw [hs] at h
        simp only [List.mem_singleton] at h
        subst h
        exact sign_not_align _ hd
    · rcases hzz with hs | hs <;> rw [hs] at h
      · simp at h
      · simp only [List.mem_singleton] at h
        subst h
        decide
    · rcases haa with hs | hs <;> rw [hs] at h
      · simp at h
      · simp only [List.mem_singleton] at h
        subst h
        decide
    · rcases hzr with hs | hs <;> rw [hs] at h
      · simp at h
      · simp only [List.mem_singleton] at h
        subst h
        decide
    · exact (digit_props c (hwd c h)).2.1
    · rcases hgr with hs | hs | hs <;> rw [hs] at h
      · simp at h
      · simp only [List.mem_singleton] at h
        subst h
        decide
      · simp only [List.mem_singleton] at h
        subst h
        decide
    · by_cases hp0 : f.precision = []
      · rw [if_pos hp0] at h
        simp at h
      · rw [if_neg hp0] at h
        rcases List.mem_cons.mp h with h | h
        · subst h
          decide
        · exact (digit_props c (hpr c h)).2.1
    · rcases hty with hs | ⟨d, hd, hs⟩
      · rw [hs] at h
        simp at h
      · rw [hs] at h
        simp only [List.mem_singleton] at h
        subst h
        exact (mem_typeChars_props _ hd).2.1
  have faE : matchFillAlign (f.fill ++ (f.align ++ (f.sign ++ (f.z ++ (f.alt ++
      (f.zero ++ (f.width ++ (f.grouping_option ++
      ((if f.precision = [] then [] else '.' :: f.precision) ++
        f.type))))))))) =
      (f.fill, f.align, f.sign ++ (f.z ++ (f.alt ++ (f.zero ++ (f.width ++
        (f.grouping_option ++
        ((if f.precision = [] then [] else '.' :: f.precision) ++
          f.type))))))) := by
    rw [← List.append_assoc]
    exact matchFillAlign_valid f.fill f.align _ hfa faMem
  rw [specString_assoc]
  simp only [runFormat]
  rw [faE]
  dsimp only
  rw [sgE]
  dsimp only
  rw [zzE]
  dsimp only
  rw [aaE]
  dsimp only
  rw [zrE]
  dsimp only
  rw [wdE]
  dsimp only
  rw [grE]
  dsimp only
  rw [prE]
  dsimp only
  rw [tyE]

/-- C2: for every spec string accepted by the parser, the serialized form of
the parse (`format_spec_to_string`) is itself a valid parser input and
re-parses to a structurally equal `Format`. -/
theorem spec_C2 (s : List Char) (f : Format) (h : parseFormat s = some f) :
    parseFormat f.specString = some f := by
  have hrun := parseFormat_some s f h
  have hWF : f.WF := by
    have := (runFormat_shape s).1
    rw [hrun] at this
    exact this
  unfold parseFormat
  rw [parse_specString f hWF]

/-- C2 witness: the round trip evaluated at the spec string "<5.2f". -/
theorem spec_C2_witness :
    parseFormat (Format.specString ⟨[], ['<'], [], [], [], [], ['5'], [], ['2'],
      ['f']⟩) = some ⟨[], ['<'], [], [], [], [], ['5'], [], ['2'], ['f']⟩ :=
  spec_C2 ['<', '5', '.', '2', 'f'] ⟨[], ['<'], [], [], [], [], ['5'], [], ['2'],
    ['f']⟩ rfl

/-! C8: parse failure is exactly non-membership in the §4.1 grammar, once
fill is restricted to non-newline characters. -/

theorem grammarWF_of_WF (f : Format) (h : f.WF) :
    f.GrammarWF ∧ f.fill ≠ ['\n'] := by
  obtain ⟨hfa, hsg, hzz, haa, hzr, hwd, hcoup, hgr, hpr, hty⟩ := h
  constructor
  · refine ⟨?_, hsg, hzz, haa, hzr, hwd, hgr, hpr, hty⟩
    rcases hfa with h | ⟨c0, c1, hc1, hnl, hfl, hal⟩
    · exact Or.inl h
    · exact Or.inr ⟨c0, c1, hc1, hfl, hal⟩
  · rcases hfa with ⟨hfl, -⟩ | ⟨c0, c1, hc1, hnl, hfl, hal⟩
    · rw [hfl]
      simp
    · rw [hfl]
      simpa using hnl

theorem wf_of_grammar (f : Format) (hg : f.GrammarWF) (hnl : f.fill ≠ ['\n'])
    (hcoup : f.zero = [] → f.width.head? ≠ some '0') : f.WF := by
  obtain ⟨hfa, hsg, hzz, haa, hzr, hwd, hgr, hpr, hty⟩ := hg
  refine ⟨?_, hsg, hzz, haa, hzr, hwd, hcoup, hgr, hpr, hty⟩
  rcases hfa with h | ⟨c0, c1, hc1, hfl, hal⟩
  · exact Or.inl h
  · refine Or.inr ⟨c0, c1, hc1, ?_, hfl, hal⟩
    intro hcon
    subst hcon
    exact hnl hfl

/-- Every grammar decomposition with a non-newline fill has a canonical
well-formed decomposition of the same string: when the decomposition put a
leading '0' into the width with an absent zero flag, move that character
into the zero flag. -/
theorem grammar_canon (f : Format) (hg : f.GrammarWF) (hnl : f.fill ≠ ['\n']) :
    ∃ g : Format, g.WF ∧ g.specString = f.specString := by
  by_cases hz : f.zero = []
  · rcases hq : f.width with _ | ⟨d, dt⟩
    · refine ⟨f, wf_of_grammar f hg hnl ?_, rfl⟩
      intro _
      rw [hq]
      simp
    · by_cases hd : d = '0'
      · subst hd
        obtain ⟨hfa, hsg, hzz, haa, hzr, hwd, hgr, hpr, hty⟩ := hg
        have hwd2 : ∀ c ∈ dt, Char.isDigit c := by
          intro c hc
          exact hwd c (by rw [hq]; simp [hc])
        refine ⟨{ f with zero := ['0'], width := dt },
          wf_of_grammar _ ⟨hfa, hsg, hzz, haa, Or.inr rfl, hwd2, hgr, hpr, hty⟩
            hnl (fun h0 => absurd h0 (by simp)), ?_⟩
        simp [Format.specString, hq, hz]
      · refine ⟨f, wf_of_grammar f hg hnl ?_, rfl⟩
        intro _
        rw [hq]
        simp [hd]
  · refine ⟨f, wf_of_grammar f hg hnl ?_, rfl⟩
    intro h0
    exact absurd h0 hz

/-- C8 counterexample: the string "\n<" matches the §4.1 grammar as written
(fill is "one arbitrary character" — here a newline — followed by the valid
align '<', all other components absent, and the whole input is consumed), so
the claim predicts success; but the parser fails on it, because the regex
fill group `.?` never matches a newline, so the greedy match consumes
nothing and the trailing-input check fails. -/
theorem spec_C8_counterexample :
    specGrammar ['\n', '<'] ∧ parseFormat ['\n', '<'] = none := by
  constructor
  · exact ⟨⟨['\n'], ['<'], [], [], [], [], [], [], [], []⟩,
      ⟨Or.inr ⟨'\n', '<', by decide, rfl, rfl⟩, Or.inl rfl, Or.inl rfl,
        Or.inl rfl, Or.inl rfl, by simp, Or.inl rfl, by simp, Or.inl rfl⟩,
      rfl⟩
  · rfl

/-- C8 amended: `parse_format_spec` fails exactly when the input does not
match the §4.1 grammar as a whole, with the grammar's fill component
restricted to non-newline characters (the parser's `.?` fill group never
matches a newline); in particular `parse_format_spec("q")` fails. -/
theorem spec_C8_amended :
    (∀ s : List Char, (parseFormat s).isNone ↔ ¬ specGrammarNoNewline s) ∧
    parseFormat ['q'] = none := by
  refine ⟨fun s => ⟨?_, ?_⟩, rfl⟩
  · intro hn hg
    obtain ⟨f, hgw, hnl, hs⟩ := hg
    subst hs
    obtain ⟨g, hgWF, hgs⟩ := grammar_canon f hgw hnl
    have hok : parseFormat g.specString = some g := by
      unfold parseFormat
      rw [parse_specString g hgWF]
    rw [← hgs, hok] at hn
    simp at hn
  · intro hng
    cases hp : parseFormat s with
    | none => simp
    | some f =>
      exfalso
      apply hng
      have hr := parseFormat_some s f hp
      have h1 := (runFormat_shape s).1
      have h2 := (runFormat_shape s).2
      rw [hr] at h1 h2
      obtain ⟨hgw, hnl⟩ := grammarWF_of_WF f h1
      exact ⟨f, hgw, hnl, by simpa using h2⟩

end PyTF
